import Mathlib

/-!
Shallow embedding of `src/main.py` of the ai-bibliometric-analyzer
repository: the abstract reconstruction (`reconstruct_abstract`, lines
71-82), the country resolution (`get_country_name`, lines 84-92), the
per-work normalization performed inside the body of the fetch loop
(lines 154-193) and the `while True:` fetch loop itself
(`fetch_openalex_data`, lines 143-204).

Conventions of the embedding:
* Python dict field access with a default (`d.get(k, v)`) becomes an
  `Option` read with `getD`; a bare subscript `d[k]` on a possibly missing
  key becomes `Except String`, the error value standing for the raised
  `KeyError`.
* An exception raised anywhere in the body of the `try:` block of the
  fetch loop is modelled by the error flags threaded through
  `processResults` and consumed by `fetchLoop`.
* The HTTP layer is abstracted as a function `Nat → Response` giving the
  server's answer to the n-th request issued; `Response.failure` covers a
  request exception, a non-success status (`r.raise_for_status()`) and an
  unparsable body alike.
* Python dicts preserve insertion order, so the abstract inverted index is
  an insertion-ordered association list.
-/

namespace OpenAlexModel

/-- Model of the `source` object inside `primary_location`; `display_name`
is read with a bare subscript in the source, so a missing key raises. -/
structure Source where
  display_name : Option String
deriving DecidableEq

/-- Model of the `primary_location` object; its `source` member is read
with `.get`, so absence (or null) is an `Option`. -/
structure Location where
  source : Option Source
deriving DecidableEq

/-- Model of the `author` object of one authorship. -/
structure Author where
  display_name : Option String
deriving DecidableEq

/-- Model of one institution object of one authorship: `display_name` is
read with a bare subscript, `country_code` with `.get`. -/
structure Institution where
  display_name : Option String
  country_code : Option String
deriving DecidableEq

/-- Model of one authorship object: `author` is read with a bare
subscript (`authorship['author']`), `institutions` with `.get(..., [])`. -/
structure Authorship where
  author : Option Author
  institutions : Option (List Institution)
deriving DecidableEq

/-- Model of one concept object; `display_name` is a bare subscript. -/
structure Concept where
  display_name : Option String
deriving DecidableEq

/-- Model of one raw work object as consumed by the loop body of
`fetch_openalex_data`: every field the code touches, each optional because
the code reads them with `.get` (or guards them for truthiness). -/
structure RawWork where
  title : Option String
  publication_year : Option Int
  cited_by_count : Option Int
  primary_location : Option Location
  authorships : Option (List Authorship)
  abstract_inverted_index : Option (List (String × List Nat))
  concepts : Option (List Concept)
deriving DecidableEq

/-- Model of the dict appended to `works_data` for one work
(src/main.py lines 181-193). -/
structure NormalizedRecord where
  title : String
  publication_year : Option Int
  cited_by_count : Int
  source_name : String
  authors : List String
  authors_str : String
  institutions : String
  countries : List String
  countries_str : String
  abstract : String
  keywords : String
deriving DecidableEq

/-- Model of Python `sep.join(xs)`. -/
def pyJoin (sep : String) : List String → String
  | [] => ""
  | [x] => x
  | x :: xs => x ++ sep ++ pyJoin sep xs

/-- Comparison performed by Python `list.sort()` on the `(position, word)`
tuples of `reconstruct_abstract`: tuple comparison is lexicographic, first
by position, then by the word string; Python compares strings by code
points, which is the lexicographic order on the character lists. -/
def tupLe (a b : Nat × String) : Bool :=
  decide (a.1 < b.1) || (decide (a.1 = b.1) && !(decide (b.2.data < a.2.data)))

/-- Insertion step of the stable sort modelling Python `list.sort()`. -/
def insertSorted (x : Nat × String) : List (Nat × String) → List (Nat × String)
  | [] => [x]
  | y :: ys => if tupLe x y then x :: y :: ys else y :: insertSorted x ys

/-- Model of `word_index.sort()` (src/main.py line 81): Python's sort is
stable and compares the `(pos, word)` tuples lexicographically; a stable
insertion sort over `tupLe` has the same input/output behaviour. -/
def pySort : List (Nat × String) → List (Nat × String)
  | [] => []
  | x :: xs => insertSorted x (pySort xs)

/-- Pairs `(pos, word)` accumulated by the two nested loops of
`reconstruct_abstract` (src/main.py lines 77-80), in iteration order. -/
def wordIndex (idx : List (String × List Nat)) : List (Nat × String) :=
  (idx.map (fun p => p.2.map (fun pos => (pos, p.1)))).flatten

/-- Model of `reconstruct_abstract` (src/main.py lines 71-82).  The
argument is `none` when the `abstract_inverted_index` field was absent or
null; `if not inverted_index` also catches the empty dict. -/
def reconstruct_abstract (inverted_index : Option (List (String × List Nat))) : String :=
  match inverted_index with
  | none => ""
  | some idx =>
    if idx = [] then ""
    else pyJoin " " ((pySort (wordIndex idx)).map Prod.snd)

/-- Modelled from the spec: the alpha-2 lookup of the external `pycountry`
library (a third-party dependency, not part of this repository's source),
restricted to a finite sample of codes; `none` models
`pycountry.countries.get(alpha_2=code)` returning `None`, on which the
subsequent `.name` raises. -/
def pycountry_table (code : String) : Option String :=
  if code = "US" then some "United States"
  else if code = "GB" then some "United Kingdom"
  else if code = "DE" then some "Germany"
  else if code = "FR" then some "France"
  else if code = "CN" then some "China"
  else if code = "JP" then some "Japan"
  else none

/-- Model of `get_country_name` (src/main.py lines 84-92): `None` and the
empty string are falsy (`if not code`), a lookup miss makes `.name` raise
`AttributeError`, which the bare `except:` turns into returning the code
unchanged. -/
def get_country_name (code : Option String) : String :=
  match code with
  | none => "Unknown"
  | some c =>
    if c = "" then "Unknown"
    else
      match pycountry_table c with
      | some name => name
      | none => c

/-- Model of src/main.py lines 160-162: `source_name` stays `"Unknown"`
unless both `primary_location` and its `source` are truthy; the final
`['display_name']` is a bare subscript and raises when the key is absent. -/
def getSourceName (work : RawWork) : Except String String :=
  match work.primary_location with
  | none => .ok "Unknown"
  | some loc =>
    match loc.source with
    | none => .ok "Unknown"
    | some src =>
      match src.display_name with
      | none => .error "KeyError: display_name"
      | some n => .ok n

/-- Model of the inner `for inst in authorship.get('institutions', []):`
loop (src/main.py lines 172-176): returns the institution names and the
resolved country names contributed, in append order; `inst['display_name']`
raises on a missing key, `if cc:` skips a missing, null or empty code. -/
def processInstitutions : List Institution → Except String (List String × List String)
  | [] => .ok ([], [])
  | inst :: rest =>
    match inst.display_name with
    | none => .error "KeyError: display_name"
    | some n =>
      match processInstitutions rest with
      | .error e => .error e
      | .ok (ns, cs) =>
        .ok (n :: ns,
             match inst.country_code with
             | none => cs
             | some cc => if cc = "" then cs else get_country_name (some cc) :: cs)

/-- Model of the `for authorship in work.get('authorships', []):` loop
(src/main.py lines 168-176): returns the accumulated `authors_list`,
`institutions_list` and `countries_list`; `authorship['author']` and
`['display_name']` are bare subscripts and raise on a missing key. -/
def processAuthorships : List Authorship → Except String (List String × List String × List String)
  | [] => .ok ([], [], [])
  | a :: rest =>
    match a.author with
    | none => .error "KeyError: author"
    | some au =>
      match au.display_name with
      | none => .error "KeyError: display_name"
      | some name =>
        match processInstitutions (a.institutions.getD []) with
        | .error e => .error e
        | .ok (ns, cs) =>
          match processAuthorships rest with
          | .error e => .error e
          | .ok (as2, is2, cs2) => .ok (name :: as2, ns ++ is2, cs ++ cs2)

/-- Model of the concepts comprehension (src/main.py line 179);
`c['display_name']` is a bare subscript and raises on a missing key. -/
def getConcepts : List Concept → Except String (List String)
  | [] => .ok []
  | c :: rest =>
    match c.display_name with
    | none => .error "KeyError: display_name"
    | some n =>
      match getConcepts rest with
      | .error e => .error e
      | .ok ns => .ok (n :: ns)

/-- Model of `list(set(xs))` (src/main.py lines 188 and 190): the set
holds exactly the distinct elements; its iteration order is unspecified in
Python, modelled here by `List.dedup`. -/
def pySet (xs : List String) : List String := xs.dedup

/-- Model of one iteration of the `for work in results:` loop body
(src/main.py lines 154-193): the flat record built for one raw work, or
the exception the body raises. -/
def normalizeWork (work : RawWork) : Except String NormalizedRecord :=
  match getSourceName work with
  | .error e => .error e
  | .ok source_name =>
    match processAuthorships (work.authorships.getD []) with
    | .error e => .error e
    | .ok (authors_list, institutions_list, countries_list) =>
      match getConcepts (work.concepts.getD []) with
      | .error e => .error e
      | .ok concepts =>
        .ok { title := work.title.getD ""
              publication_year := work.publication_year
              cited_by_count := work.cited_by_count.getD 0
              source_name := source_name
              authors := authors_list
              authors_str := pyJoin "; " authors_list
              institutions := pyJoin "; " (pySet institutions_list)
              countries := countries_list
              countries_str := pyJoin "; " (pySet countries_list)
              abstract := reconstruct_abstract work.abstract_inverted_index
              keywords := pyJoin "; " concepts }

/-- Model of the whole `for work in results:` loop at page level: works
are normalized and appended to the accumulator one at a time; an exception
stops the page at that work, keeping the records appended so far, and the
`true` flag records that the surrounding `try:` caught an exception. -/
def processResults : List RawWork → List NormalizedRecord × Bool
  | [] => ([], false)
  | w :: ws =>
    match normalizeWork w with
    | .error _ => ([], true)
    | .ok r =>
      let p := processResults ws
      (r :: p.1, p.2)

/-- Server answer to one request of the fetch loop: `failure` models a
request exception, a non-success HTTP status or an unparsable body (any of
which raises inside the `try:` before the loop body runs); `success`
carries the `results` array (read with `.get('results', [])`, so always a
list) and the value of `data['meta']['next_cursor']`, where the outer
`Option` is `none` when that double subscript would raise `KeyError` and
`some c` holds the cursor value (`none` inside modelling JSON null). -/
inductive Response where
  | failure : Response
  | success : List RawWork → Option (Option String) → Response

/-- Length of the normalized page when the page raised no exception. -/
theorem processResults_length_of_ok (l : List RawWork)
    (h : (processResults l).2 = false) : (processResults l).1.length = l.length := by
  induction l with
  | nil => rfl
  | cons w ws ih =>
    cases hn : normalizeWork w with
    | error e => simp [processResults, hn] at h
    | ok r =>
      simp [processResults, hn] at h ⊢
      exact ih h

/-- Model of the `while True:` fetch loop of `fetch_openalex_data`
(src/main.py lines 143-204).  `i` counts the requests already issued (the
server is abstracted to the sequence of its answers), `works` is the
accumulator `works_data`, `cursor` is the value `params["cursor"]` holds
for the next request (`none` models Python `None`, which the `requests`
library omits from the query string) and `log` records the cursor
parameter of every request issued so far.  Every iteration that recurses
has appended a non-empty page and re-checked `len(works_data) >= 2000`,
which bounds the recursion. -/
def fetchLoop (server : Nat → Response) (i : Nat) (works : List NormalizedRecord)
    (cursor : Option String) (log : List (Option String)) :
    List NormalizedRecord × List (Option String) :=
  match server i with
  | .failure => (works, log ++ [cursor])
  | .success results metaCursor =>
    if hres : results = [] then (works, log ++ [cursor])
    else
      match hpr : processResults results with
      | (page, true) => (works ++ page, log ++ [cursor])
      | (page, false) =>
        match metaCursor with
        | none => (works ++ page, log ++ [cursor])
        | some c =>
          if hcap : (works ++ page).length ≥ 2000 then (works ++ page, log ++ [cursor])
          else fetchLoop server (i + 1) (works ++ page) c (log ++ [cursor])
termination_by 2000 - works.length
decreasing_by
  have hlen : page.length = results.length := by
    have h2 := processResults_length_of_ok results
    rw [hpr] at h2
    exact h2 rfl
  have hne : results.length ≠ 0 := fun h0 => hres (List.length_eq_zero.mp h0)
  have hlt : (works ++ page).length < 2000 := Nat.lt_of_not_le hcap
  simp only [List.length_append] at hlt ⊢
  omega

/-- Model of the fetch phase of `fetch_openalex_data`: the accumulator
starts empty and the first request carries the initial cursor `"*"`. -/
def fetch_openalex_data (server : Nat → Response) :
    List NormalizedRecord × List (Option String) :=
  fetchLoop server 0 [] (some "*") []

/-- Unfolding of `fetchLoop` when the request itself fails: the `except`
clause breaks out of the loop with the accumulator as it stands. -/
theorem fetchLoop_failure (server : Nat → Response) (i : Nat)
    (works : List NormalizedRecord) (cursor : Option String)
    (log : List (Option String)) (h : server i = Response.failure) :
    fetchLoop server i works cursor log = (works, log ++ [cursor]) := by
  rw [fetchLoop, h]

/-- Unfolding of `fetchLoop` when a page comes back with an empty
`results` array: `if not results: break`. -/
theorem fetchLoop_empty (server : Nat → Response) (i : Nat)
    (works : List NormalizedRecord) (cursor : Option String)
    (log : List (Option String)) (metaCursor : Option (Option String))
    (h : server i = Response.success [] metaCursor) :
    fetchLoop server i works cursor log = (works, log ++ [cursor]) := by
  rw [fetchLoop, h]
  dsimp only
  rw [dif_pos rfl]

/-- Unfolding of `fetchLoop` when normalization raises somewhere inside
the page: the records appended before the exception are kept and the
`except` clause breaks out of the loop. -/
theorem fetchLoop_page_err (server : Nat → Response) (i : Nat)
    (works : List NormalizedRecord) (cursor : Option String)
    (log : List (Option String)) (results : List RawWork)
    (metaCursor : Option (Option String)) (page : List NormalizedRecord)
    (h : server i = Response.success results metaCursor) (hres : results ≠ [])
    (hpr : processResults results = (page, true)) :
    fetchLoop server i works cursor log = (works ++ page, log ++ [cursor]) := by
  rw [fetchLoop, h]
  dsimp only
  rw [dif_neg hres]
  split
  next page2 heq =>
    rw [hpr] at heq
    injection heq with h1 h2
    subst h1
    rfl
  next page2 heq =>
    rw [hpr] at heq
    cases heq

/-- Unfolding of `fetchLoop` when the page processes cleanly but
`data['meta']['next_cursor']` raises `KeyError`: the `except` clause
breaks out of the loop after the page was appended. -/
theorem fetchLoop_meta_missing (server : Nat → Response) (i : Nat)
    (works : List NormalizedRecord) (cursor : Option String)
    (log : List (Option String)) (results : List RawWork)
    (page : List NormalizedRecord)
    (h : server i = Response.success results none) (hres : results ≠ [])
    (hpr : processResults results = (page, false)) :
    fetchLoop server i works cursor log = (works ++ page, log ++ [cursor]) := by
  rw [fetchLoop, h]
  dsimp only
  rw [dif_neg hres]
  split
  next page2 heq =>
    rw [hpr] at heq
    cases heq
  next page2 heq =>
    rw [hpr] at heq
    injection heq with h1 h2
    subst h1
    rfl

/-- Unfolding of `fetchLoop` when the page processes cleanly and the
accumulator has reached the demo limit: `if len(works_data) >= 2000`. -/
theorem fetchLoop_cap (server : Nat → Response) (i : Nat)
    (works : List NormalizedRecord) (cursor : Option String)
    (log : List (Option String)) (results : List RawWork)
    (page : List NormalizedRecord) (c : Option String)
    (h : server i = Response.success results (some c)) (hres : results ≠ [])
    (hpr : processResults results = (page, false))
    (hcap : (works ++ page).length ≥ 2000) :
    fetchLoop server i works cursor log = (works ++ page, log ++ [cursor]) := by
  rw [fetchLoop, h]
  dsimp only
  rw [dif_neg hres]
  split
  next page2 heq =>
    rw [hpr] at heq
    cases heq
  next page2 heq =>
    rw [hpr] at heq
    injection heq with h1 h2
    subst h1
    rw [dif_pos hcap]

/-- Unfolding of `fetchLoop` when the page processes cleanly, a cursor
value is present and the cap is not reached: the loop iterates with the
new cursor, whatever its value (JSON null included). -/
theorem fetchLoop_next (server : Nat → Response) (i : Nat)
    (works : List NormalizedRecord) (cursor : Option String)
    (log : List (Option String)) (results : List RawWork)
    (page : List NormalizedRecord) (c : Option String)
    (h : server i = Response.success results (some c)) (hres : results ≠ [])
    (hpr : processResults results = (page, false))
    (hcap : (works ++ page).length < 2000) :
    fetchLoop server i works cursor log =
      fetchLoop server (i + 1) (works ++ page) c (log ++ [cursor]) := by
  rw [fetchLoop, h]
  dsimp only
  rw [dif_neg hres]
  split
  next page2 heq =>
    rw [hpr] at heq
    cases heq
  next page2 heq =>
    rw [hpr] at heq
    injection heq with h1 h2
    subst h1
    rw [dif_neg (not_le.mpr hcap)]

/-- Length of the normalized page never exceeds the page's result count,
exception or not. -/
theorem processResults_length_le (l : List RawWork) :
    (processResults l).1.length ≤ l.length := by
  induction l with
  | nil => simp [processResults]
  | cons w ws ih =>
    cases hn : normalizeWork w <;> simp [processResults, hn] <;> omega

/-- Sum of a prefix of a list of naturals is at most the total sum. -/
theorem sum_take_le (l : List Nat) (n : Nat) : (l.take n).sum ≤ l.sum := by
  induction l generalizing n with
  | nil => simp
  | cons a l ih =>
    cases n with
    | zero => simp
    | succ n => simpa using Nat.add_le_add_left (ih n) a

/-- Run lemma: while each answered page is non-empty, normalizes without
an exception, carries a cursor value and leaves the accumulator below the
demo limit, the loop marches through the pages, appending each normalized
page and issuing exactly one request per page. -/
theorem fetchLoop_append (server : Nat → Response) :
    ∀ (ps : List (List RawWork)) (i : Nat) (works : List NormalizedRecord)
      (cursor : Option String) (log : List (Option String)) (cs : Nat → Option String),
    (∀ j (hj : j < ps.length), server (i + j) = Response.success (ps.get ⟨j, hj⟩) (some (cs j))) →
    (∀ p ∈ ps, p ≠ []) →
    (∀ p ∈ ps, (processResults p).2 = false) →
    (∀ j, j < ps.length → works.length + ((ps.take (j + 1)).map List.length).sum < 2000) →
    ∃ c2 log2,
      fetchLoop server i works cursor log =
        fetchLoop server (i + ps.length)
          (works ++ (ps.map (fun p => (processResults p).1)).flatten) c2 log2 ∧
      log2.length = log.length + ps.length := by
  intro ps
  induction ps with
  | nil =>
    intro i works cursor log cs _ _ _ _
    exact ⟨cursor, log, by simp, by simp⟩
  | cons p ps2 ih =>
    intro i works cursor log cs hserve hne hok hcap
    have hp0 : server (i + 0) = Response.success p (some (cs 0)) := hserve 0 (by simp)
    have hpne : p ≠ [] := hne p (List.mem_cons_self p ps2)
    have hpok : (processResults p).2 = false := hok p (List.mem_cons_self p ps2)
    rcases hq : processResults p with ⟨page, flag⟩
    have hflag : flag = false := by rw [hq] at hpok; exact hpok
    subst hflag
    have hplen : page.length = p.length := by
      have h2 := processResults_length_of_ok p (by rw [hq])
      rw [hq] at h2
      exact h2
    have hcap0 : works.length + p.length < 2000 := by
      have := hcap 0 (by simp)
      simpa using this
    have hcaplen : (works ++ page).length < 2000 := by
      rw [List.length_append, hplen]
      exact hcap0
    have step := fetchLoop_next server i works cursor log p page (cs 0)
      (by simpa using hp0) hpne hq hcaplen
    have hserve2 : ∀ j (hj : j < ps2.length),
        server (i + 1 + j) = Response.success (ps2.get ⟨j, hj⟩) (some (cs (j + 1))) := by
      intro j hj
      have h2 := hserve (j + 1) (by simpa using Nat.succ_lt_succ hj)
      rw [show i + (j + 1) = i + 1 + j by omega] at h2
      simpa using h2
    have hne2 : ∀ p2 ∈ ps2, p2 ≠ [] := fun p2 hp2 => hne p2 (List.mem_cons_of_mem p hp2)
    have hok2 : ∀ p2 ∈ ps2, (processResults p2).2 = false :=
      fun p2 hp2 => hok p2 (List.mem_cons_of_mem p hp2)
    have hcap2 : ∀ j, j < ps2.length →
        (works ++ page).length + ((ps2.take (j + 1)).map List.length).sum < 2000 := by
      intro j hj
      have h2 := hcap (j + 1) (by simpa using Nat.succ_lt_succ hj)
      rw [List.take_succ_cons, List.map_cons, List.sum_cons] at h2
      rw [List.length_append, hplen]
      omega
    obtain ⟨c2, log2, heq, hlen⟩ :=
      ih (i + 1) (works ++ page) (cs 0) (log ++ [cursor]) (fun j => cs (j + 1))
        hserve2 hne2 hok2 hcap2
    refine ⟨c2, log2, ?_, ?_⟩
    · rw [step, heq]
      rw [show i + 1 + ps2.length = i + (p :: ps2).length by simp; omega]
      rw [List.map_cons, List.flatten_cons, hq, List.append_assoc]
    · rw [hlen]
      simp
      omega

/-- Run lemma for a session that ends by reaching the demo limit: after
the clean pages `ps` the next page `q` pushes the accumulator to 2000 or
beyond, the loop breaks, and exactly one request per processed page was
issued (none after the limit was reached). -/
theorem fetch_capped_run (server : Nat → Response) (ps : List (List RawWork))
    (q : List RawWork) (qpage : List NormalizedRecord) (cs : Nat → Option String)
    (c : Option String)
    (hserve : ∀ j (hj : j < ps.length),
      server j = Response.success (ps.get ⟨j, hj⟩) (some (cs j)))
    (hq : server ps.length = Response.success q (some c))
    (hne : ∀ p ∈ ps, p ≠ []) (hok : ∀ p ∈ ps, (processResults p).2 = false)
    (hqne : q ≠ []) (hqok : processResults q = (qpage, false))
    (hcap : ∀ j, j < ps.length → ((ps.take (j + 1)).map List.length).sum < 2000)
    (hfull : ((ps.map (fun p => (processResults p).1)).flatten ++ qpage).length ≥ 2000) :
    (fetch_openalex_data server).1 =
      (ps.map (fun p => (processResults p).1)).flatten ++ qpage ∧
    (fetch_openalex_data server).2.length = ps.length + 1 := by
  obtain ⟨c2, log2, heq, hlen⟩ :=
    fetchLoop_append server ps 0 [] (some "*") [] cs
      (by simpa using hserve) hne hok (by simpa using hcap)
  have hstop := fetchLoop_cap server ps.length
    ((ps.map (fun p => (processResults p).1)).flatten) c2 log2 q qpage c
    hq hqne hqok (by simpa using hfull)
  rw [fetch_openalex_data, heq]
  simp only [Nat.zero_add, List.nil_append] at hstop ⊢
  rw [hstop]
  simp [hlen]

/-- Invariant of the fetch loop: the loop re-enters only while the
accumulator is below 2000, and one page adds at most the page size, so
when every page the server answers holds at most 200 results (the
`per_page` request parameter) the accumulator never grows to 2200. -/
theorem fetchLoop_length_bound (server : Nat → Response)
    (hpage : ∀ k res mc, server k = Response.success res mc → res.length ≤ 200) :
    ∀ (i : Nat) (works : List NormalizedRecord) (cursor : Option String)
      (log : List (Option String)),
      works.length < 2000 → ((fetchLoop server i works cursor log).1).length < 2200 := by
  intro i works cursor log
  induction i, works, cursor, log using fetchLoop.induct with
  | server a => exact server a
  | case1 i works cursor log h =>
    intro hw
    rw [fetchLoop_failure server i works cursor log h]
    simpa using hw.trans (by omega)
  | case2 i works cursor log r hserv =>
    intro hw
    rw [fetchLoop_empty server i works cursor log r hserv]
    simpa using hw.trans (by omega)
  | case3 i works cursor log r mc hserv hres page hpr =>
    intro hw
    rw [fetchLoop_page_err server i works cursor log r mc page hserv hres hpr]
    have h1 : page.length ≤ r.length := by
      have h2 := processResults_length_le r
      rw [hpr] at h2
      exact h2
    have h3 : r.length ≤ 200 := hpage i r mc hserv
    simp only [List.length_append]
    omega
  | case4 i works cursor log r hres page hpr hserv =>
    intro hw
    rw [fetchLoop_meta_missing server i works cursor log r page hserv hres hpr]
    have h1 : page.length ≤ r.length := by
      have h2 := processResults_length_le r
      rw [hpr] at h2
      exact h2
    have h3 : r.length ≤ 200 := hpage i r none hserv
    simp only [List.length_append]
    omega
  | case5 i works cursor log r hres page hpr c hcap hserv =>
    intro hw
    rw [fetchLoop_cap server i works cursor log r page c hserv hres hpr hcap]
    have h1 : page.length ≤ r.length := by
      have h2 := processResults_length_le r
      rw [hpr] at h2
      exact h2
    have h3 : r.length ≤ 200 := hpage i r (some c) hserv
    simp only [List.length_append]
    omega
  | case6 i works cursor log r hres page hpr c hcap hserv ih =>
    intro hw
    rw [fetchLoop_next server i works cursor log r page c hserv hres hpr
      (Nat.lt_of_not_le hcap)]
    exact ih (Nat.lt_of_not_le hcap)

/-- Raw work with every optional field absent. -/
def emptyWork : RawWork :=
  { title := none, publication_year := none, cited_by_count := none,
    primary_location := none, authorships := none,
    abstract_inverted_index := none, concepts := none }

/-- Record the loop body builds for `emptyWork`: every documented default. -/
def emptyRecord : NormalizedRecord :=
  { title := "", publication_year := none, cited_by_count := 0,
    source_name := "Unknown", authors := [], authors_str := "",
    institutions := "", countries := [], countries_str := "",
    abstract := "", keywords := "" }

/-- C8: country-code resolution is pure and total: the function is a total
Lean function (never raises by construction); an absent or empty code
yields the fixed sentinel `"Unknown"`; a code the static table recognizes
yields its display name (`"US"` maps to `"United States"`); any other code
is returned unchanged. -/
theorem country_resolution_total :
    get_country_name none = "Unknown" ∧
    get_country_name (some "") = "Unknown" ∧
    get_country_name (some "US") = "United States" ∧
    ∀ c, c ≠ "" → pycountry_table c = none → get_country_name (some c) = c := by
  refine ⟨rfl, rfl, rfl, ?_⟩
  intro c hc hnone
  simp [get_country_name, hc, hnone]

/-- Witness for C8: the unknown code `"ZZ"` comes back unchanged. -/
theorem country_resolution_total_witness : get_country_name (some "ZZ") = "ZZ" :=
  country_resolution_total.2.2.2 "ZZ" (by decide) (by decide)

/-- C5: journal/source resolution is total over the optional
`primary_location → source` path: when `primary_location` is absent, or
its `source` is absent, the traversal returns `"Unknown"` without raising,
and any record the loop body produces for such a work carries
`source_name = "Unknown"`. -/
theorem source_name_unknown_on_missing_path (w : RawWork)
    (h : w.primary_location = none ∨
         ∃ loc, w.primary_location = some loc ∧ loc.source = none) :
    getSourceName w = Except.ok "Unknown" ∧
    ∀ r, normalizeWork w = Except.ok r → r.source_name = "Unknown" := by
  have hsrc : getSourceName w = Except.ok "Unknown" := by
    rcases h with h | ⟨loc, h1, h2⟩
    · simp [getSourceName, h]
    · simp [getSourceName, h1, h2]
  refine ⟨hsrc, ?_⟩
  intro r hr
  rw [normalizeWork, hsrc] at hr
  dsimp only at hr
  split at hr
  · cases hr
  · split at hr
    · cases hr
    · cases hr
      rfl

/-- Witness for C5: a work with no `primary_location` at all. -/
theorem source_name_unknown_on_missing_path_witness :
    getSourceName emptyWork = Except.ok "Unknown" :=
  (source_name_unknown_on_missing_path emptyWork (Or.inl rfl)).1

/-- Inner objects of the authorships that the loop body dereferences with
a bare subscript must be present for the body not to raise: each
authorship needs `author` with a `display_name`, and each of its
institutions needs a `display_name`. -/
def authorshipsWellFormed (l : List Authorship) : Prop :=
  ∀ a ∈ l, (∃ au, a.author = some au ∧ au.display_name ≠ none) ∧
    ∀ inst ∈ a.institutions.getD [], inst.display_name ≠ none

/-- Each concept object must carry a `display_name` for the comprehension
on line 179 not to raise. -/
def conceptsWellFormed (l : List Concept) : Prop := ∀ c ∈ l, c.display_name ≠ none

/-- When both `primary_location` and its `source` are present, the
`source` must carry a `display_name` for line 162 not to raise. -/
def sourceWellFormed (w : RawWork) : Prop :=
  ∀ loc src, w.primary_location = some loc → loc.source = some src →
    src.display_name ≠ none

/-- Institution processing succeeds when every institution has a name. -/
theorem processInstitutions_ok (l : List Institution)
    (h : ∀ inst ∈ l, inst.display_name ≠ none) :
    ∃ t, processInstitutions l = Except.ok t := by
  induction l with
  | nil => exact ⟨([], []), rfl⟩
  | cons inst rest ih =>
    obtain ⟨⟨ns, cs⟩, ht⟩ := ih (fun i hi => h i (List.mem_cons_of_mem inst hi))
    rcases hd : inst.display_name with _ | n
    · exact absurd hd (h inst (List.mem_cons_self inst rest))
    · exact ⟨_, by simp only [processInstitutions, hd, ht]; rfl⟩

/-- Authorship processing succeeds on well-formed authorships. -/
theorem processAuthorships_ok (l : List Authorship)
    (h : authorshipsWellFormed l) :
    ∃ t, processAuthorships l = Except.ok t := by
  induction l with
  | nil => exact ⟨([], [], []), rfl⟩
  | cons a rest ih =>
    obtain ⟨⟨au, hau, hdn⟩, hinst⟩ := h a (List.mem_cons_self a rest)
    obtain ⟨⟨as2, is2, cs2⟩, ht⟩ :=
      ih (fun a2 ha2 => h a2 (List.mem_cons_of_mem a ha2))
    obtain ⟨⟨ns, cs⟩, hpi⟩ := processInstitutions_ok (a.institutions.getD []) hinst
    rcases hd : au.display_name with _ | name
    · exact absurd hd hdn
    · exact ⟨_, by simp only [processAuthorships, hau, hd, hpi, ht]; rfl⟩

/-- Concept extraction succeeds on well-formed concepts. -/
theorem getConcepts_ok (l : List Concept) (h : conceptsWellFormed l) :
    ∃ t, getConcepts l = Except.ok t := by
  induction l with
  | nil => exact ⟨[], rfl⟩
  | cons c rest ih =>
    obtain ⟨ns, ht⟩ := ih (fun c2 hc2 => h c2 (List.mem_cons_of_mem c hc2))
    rcases hd : c.display_name with _ | n
    · exact absurd hd (h c (List.mem_cons_self c rest))
    · exact ⟨_, by simp only [getConcepts, hd, ht]; rfl⟩

/-- Source-name resolution succeeds under `sourceWellFormed`. -/
theorem getSourceName_ok (w : RawWork) (h : sourceWellFormed w) :
    ∃ s, getSourceName w = Except.ok s := by
  rcases hp : w.primary_location with _ | loc
  · exact ⟨"Unknown", by simp only [getSourceName, hp]⟩
  · rcases hs : loc.source with _ | src
    · exact ⟨"Unknown", by simp only [getSourceName, hp, hs]⟩
    · rcases hd : src.display_name with _ | n
      · exact absurd hd (h loc src hp hs)
      · exact ⟨n, by simp only [getSourceName, hp, hs, hd]⟩

/-- C4 (amended): normalizing one raw work never raises for any missing
optional field among title, publication_year, cited_by_count,
primary_location (or its source), authorships, an authorship's
institutions list, an institution's country_code,
abstract_inverted_index and concepts, and it substitutes the documented
defaults — provided the objects that ARE present are internally
well-formed: a present authorship must carry an author with a
display_name, a present institution and a present concept must carry a
display_name, and a present source must carry a display_name (those are
dereferenced with bare subscripts and do raise when absent). -/
theorem normalize_total_on_optional_fields (w : RawWork)
    (h1 : authorshipsWellFormed (w.authorships.getD []))
    (h2 : conceptsWellFormed (w.concepts.getD []))
    (h3 : sourceWellFormed w) :
    ∃ r, normalizeWork w = Except.ok r ∧
      (w.title = none → r.title = "") ∧
      (w.publication_year = none → r.publication_year = none) ∧
      (w.cited_by_count = none → r.cited_by_count = 0) ∧
      (w.primary_location = none → r.source_name = "Unknown") ∧
      (w.authorships = none → r.authors = [] ∧ r.authors_str = "" ∧
        r.institutions = "" ∧ r.countries = [] ∧ r.countries_str = "") ∧
      (w.abstract_inverted_index = none → r.abstract = "") ∧
      (w.concepts = none → r.keywords = "") := by
  obtain ⟨s, hs⟩ := getSourceName_ok w h3
  obtain ⟨⟨as2, is2, cs2⟩, hpa⟩ := processAuthorships_ok _ h1
  obtain ⟨ks, hk⟩ := getConcepts_ok _ h2
  refine ⟨_, by simp only [normalizeWork, hs, hpa, hk]; rfl, ?_, ?_, ?_, ?_, ?_, ?_, ?_⟩
  · intro ht
    simp [ht]
  · intro hy
    simp [hy]
  · intro hc
    simp [hc]
  · intro hp
    have hs2 : getSourceName w = Except.ok "Unknown" := by
      simp only [getSourceName, hp]
    rw [hs2] at hs
    injection hs with hs3
    exact hs3.symm
  · intro ha
    rw [ha] at hpa
    simp only [Option.getD_none, processAuthorships, Except.ok.injEq,
      Prod.mk.injEq] at hpa
    obtain ⟨e1, e2, e3⟩ := hpa
    subst e1
    subst e2
    subst e3
    exact ⟨rfl, rfl, rfl, rfl, rfl⟩
  · intro hai
    simp [reconstruct_abstract, hai]
  · intro hc
    rw [hc] at hk
    simp only [Option.getD_none, getConcepts] at hk
    injection hk with hk2
    rw [← hk2]
    rfl

/-- Raw work whose single authorship lacks the `author` object: the loop
body's `authorship['author']['display_name']` raises `KeyError`. -/
def workMissingAuthor : RawWork :=
  { title := none, publication_year := none, cited_by_count := none,
    primary_location := none,
    authorships := some [{ author := none, institutions := none }],
    abstract_inverted_index := none, concepts := none }

/-- C4 counterexample: the claim says absence of an authorship's `author`
never raises; on the code, normalizing a work whose only authorship has no
`author` raises `KeyError` (modelled as `Except.error`), so the per-work
normalization does not complete with defaults. -/
theorem missing_author_raises :
    normalizeWork workMissingAuthor = Except.error "KeyError: author" := rfl

/-- Witness for C4: a work with every optional field absent normalizes
without an exception, with every documented default substituted. -/
theorem normalize_total_on_optional_fields_witness :
    ∃ r, normalizeWork emptyWork = Except.ok r ∧
      (emptyWork.title = none → r.title = "") ∧
      (emptyWork.publication_year = none → r.publication_year = none) ∧
      (emptyWork.cited_by_count = none → r.cited_by_count = 0) ∧
      (emptyWork.primary_location = none → r.source_name = "Unknown") ∧
      (emptyWork.authorships = none → r.authors = [] ∧ r.authors_str = "" ∧
        r.institutions = "" ∧ r.countries = [] ∧ r.countries_str = "") ∧
      (emptyWork.abstract_inverted_index = none → r.abstract = "") ∧
      (emptyWork.concepts = none → r.keywords = "") :=
  normalize_total_on_optional_fields emptyWork
    (by intro a ha; simp [emptyWork] at ha)
    (by intro c hc; simp [emptyWork] at hc)
    (by intro loc src hp; simp [emptyWork] at hp)

/-- The `authors_list` built by the authorship loop has one entry per
authorship, in source order: the i-th entry is the display name of the
i-th authorship's author. -/
theorem processAuthorships_authors (l : List Authorship) :
    ∀ (as2 is2 cs2 : List String),
    processAuthorships l = Except.ok (as2, is2, cs2) →
    as2.length = l.length ∧
    ∀ i (hi : i < l.length) (hi2 : i < as2.length),
      ∃ au, (l.get ⟨i, hi⟩).author = some au ∧
        au.display_name = some (as2.get ⟨i, hi2⟩) := by
  induction l with
  | nil =>
    intro as2 is2 cs2 h
    simp only [processAuthorships, Except.ok.injEq, Prod.mk.injEq] at h
    obtain ⟨e1, e2, e3⟩ := h
    subst e1
    exact ⟨rfl, fun i hi hi2 => absurd hi (by simp)⟩
  | cons a rest ih =>
    intro as2 is2 cs2 h
    rcases ha : a.author with _ | au
    · rw [processAuthorships, ha] at h
      cases h
    rcases hd : au.display_name with _ | name
    · rw [processAuthorships, ha] at h
      dsimp only at h
      rw [hd] at h
      cases h
    rcases hpi : processInstitutions (a.institutions.getD []) with e | ⟨ns, cs⟩
    · rw [processAuthorships, ha] at h
      dsimp only at h
      rw [hd] at h
      dsimp only at h
      rw [hpi] at h
      cases h
    rcases hpa : processAuthorships rest with e | ⟨as3, is3, cs3⟩
    · simp only [processAuthorships, ha, hd, hpi, hpa] at h
      cases h
    · simp only [processAuthorships, ha, hd, hpi, hpa, Except.ok.injEq,
        Prod.mk.injEq] at h
      obtain ⟨e1, e2, e3⟩ := h
      subst e1
      obtain ⟨hl, hspec⟩ := ih as3 is3 cs3 hpa
      refine ⟨by simp [hl], ?_⟩
      intro i hi hi2
      cases i with
      | zero => exact ⟨au, ha, by simp [hd]⟩
      | succ j =>
        simp only [List.get_cons_succ]
        exact hspec j (by simpa using hi) (by simpa using hi2)

/-- C9: every produced record lists its authors in source authorship
order (the i-th author name is the display name of the i-th authorship's
author), and its exported institution and country collections — the
deduplicated lists whose joins populate the `institutions` and
`countries_str` columns of the export — contain no duplicate names. -/
theorem authors_order_and_dedup (w : RawWork) (r : NormalizedRecord)
    (h : normalizeWork w = Except.ok r) :
    r.authors.length = (w.authorships.getD []).length ∧
    (∀ i (hi : i < (w.authorships.getD []).length) (hi2 : i < r.authors.length),
      ∃ au, ((w.authorships.getD []).get ⟨i, hi⟩).author = some au ∧
        au.display_name = some (r.authors.get ⟨i, hi2⟩)) ∧
    (∃ li, r.institutions = pyJoin "; " li ∧ li.Nodup) ∧
    (∃ lc, r.countries_str = pyJoin "; " lc ∧ lc.Nodup) := by
  rw [normalizeWork] at h
  rcases hs : getSourceName w with e | s
  · rw [hs] at h
    cases h
  rw [hs] at h
  dsimp only at h
  rcases hpa : processAuthorships (w.authorships.getD []) with e | ⟨as2, is2, cs2⟩
  · rw [hpa] at h
    cases h
  rw [hpa] at h
  dsimp only at h
  rcases hk : getConcepts (w.concepts.getD []) with e | ks
  · rw [hk] at h
    cases h
  rw [hk] at h
  dsimp only at h
  cases h
  obtain ⟨hl, hspec⟩ := processAuthorships_authors _ as2 is2 cs2 hpa
  exact ⟨hl, hspec,
    ⟨pySet is2, rfl, List.nodup_dedup is2⟩,
    ⟨pySet cs2, rfl, List.nodup_dedup cs2⟩⟩

/-- Raw work with two authorships sharing one institution and country. -/
def workTwoAuthors : RawWork :=
  { title := some "T", publication_year := some 2020, cited_by_count := some 3,
    primary_location := none,
    authorships := some
      [ { author := some { display_name := some "Alice" },
          institutions := some [{ display_name := some "MIT", country_code := some "US" }] },
        { author := some { display_name := some "Bob" },
          institutions := some [{ display_name := some "MIT", country_code := some "US" }] } ],
    abstract_inverted_index := none, concepts := none }

/-- Record the loop body builds for `workTwoAuthors`: the raw country
column keeps the duplicate, the exported joins are deduplicated. -/
def recordTwoAuthors : NormalizedRecord :=
  { title := "T", publication_year := some 2020, cited_by_count := 3,
    source_name := "Unknown", authors := ["Alice", "Bob"],
    authors_str := "Alice; Bob", institutions := "MIT",
    countries := ["United States", "United States"],
    countries_str := "United States", abstract := "", keywords := "" }

/-- Witness for C9: the two-author work with a shared institution. -/
theorem authors_order_and_dedup_witness :
    normalizeWork workTwoAuthors = Except.ok recordTwoAuthors ∧
    (∃ li, recordTwoAuthors.institutions = pyJoin "; " li ∧ li.Nodup) ∧
    (∃ lc, recordTwoAuthors.countries_str = pyJoin "; " lc ∧ lc.Nodup) :=
  ⟨rfl,
   (authors_order_and_dedup workTwoAuthors recordTwoAuthors rfl).2.2.1,
   (authors_order_and_dedup workTwoAuthors recordTwoAuthors rfl).2.2.2⟩

/-- Inserting one element grows the sorted list by exactly one. -/
theorem length_insertSorted (x : Nat × String) (l : List (Nat × String)) :
    (insertSorted x l).length = l.length + 1 := by
  induction l with
  | nil => rfl
  | cons y ys ih =>
    rw [insertSorted]
    split
    · simp
    · simp [ih]

/-- The modelled Python sort preserves the number of elements. -/
theorem length_pySort (l : List (Nat × String)) : (pySort l).length = l.length := by
  induction l with
  | nil => rfl
  | cons x xs ih => simp [pySort, length_insertSorted, ih]

/-- Members of an insertion are the inserted element or old members. -/
theorem mem_insertSorted (x y : Nat × String) (l : List (Nat × String))
    (h : y ∈ insertSorted x l) : y = x ∨ y ∈ l := by
  induction l with
  | nil => exact Or.inl (by simpa [insertSorted] using h)
  | cons z zs ih =>
    rw [insertSorted] at h
    split at h
    · simpa using h
    · rcases List.mem_cons.mp h with h1 | h2
      · exact Or.inr (h1 ▸ List.mem_cons_self z zs)
      · rcases ih h2 with h3 | h4
        · exact Or.inl h3
        · exact Or.inr (List.mem_cons_of_mem z h4)

/-- The modelled Python sort introduces no new elements. -/
theorem mem_pySort (y : Nat × String) (l : List (Nat × String))
    (h : y ∈ pySort l) : y ∈ l := by
  induction l with
  | nil => simp [pySort] at h
  | cons x xs ih =>
    rcases mem_insertSorted x y (pySort xs) h with h1 | h2
    · exact h1 ▸ List.mem_cons_self x xs
    · exact List.mem_cons_of_mem x (ih h2)

/-- C6 counterexample: the claim says that when two distinct words claim
the same position, the word appearing earlier in the mapping is emitted
earlier; on the code, the mapping that lists `"b"` before `"a"` (both at
position 0) decodes to `"a b"`, not `"b a"` — Python's tuple sort breaks
the positional tie by comparing the word strings, not by insertion
order. -/
theorem tie_break_not_insertion_order :
    reconstruct_abstract (some [("b", [0]), ("a", [0])]) = "a b" ∧
    "a b" ≠ "b a" := ⟨by decide, by decide⟩

/-- C6 (amended): for every duplicate position shared by two distinct
words, the decoder does not crash (it is a total function) and resolves
the tie by the lexicographic code-point order of the words, independently
of their insertion order in the mapping: with `w1 < w2`, both mapping
orders decode to `w1` before `w2`. -/
theorem tie_break_lexicographic (w1 w2 : String) (p : Nat)
    (h : w1.data < w2.data) :
    reconstruct_abstract (some [(w2, [p]), (w1, [p])]) = w1 ++ " " ++ w2 ∧
    reconstruct_abstract (some [(w1, [p]), (w2, [p])]) = w1 ++ " " ++ w2 := by
  have hd1 : decide (w1.data < w2.data) = true := decide_eq_true h
  have hd2 : decide (w2.data < w1.data) = false := decide_eq_false (lt_asymm h)
  have ht1 : tupLe (p, w2) (p, w1) = false := by
    simp [tupLe, hd1, Nat.lt_irrefl]
  have ht2 : tupLe (p, w1) (p, w2) = true := by
    simp [tupLe, hd2, Nat.lt_irrefl]
  have hw1 : wordIndex [(w2, [p]), (w1, [p])] = [(p, w2), (p, w1)] := by
    simp [wordIndex]
  have hw2 : wordIndex [(w1, [p]), (w2, [p])] = [(p, w1), (p, w2)] := by
    simp [wordIndex]
  have hsort1 : pySort [(p, w2), (p, w1)] = [(p, w1), (p, w2)] := by
    simp [pySort, insertSorted, ht1]
  have hsort2 : pySort [(p, w1), (p, w2)] = [(p, w1), (p, w2)] := by
    simp [pySort, insertSorted, ht2]
  constructor
  · simp only [reconstruct_abstract]
    rw [if_neg (List.cons_ne_nil _ _), hw1, hsort1]
    simp [pyJoin]
  · simp only [reconstruct_abstract]
    rw [if_neg (List.cons_ne_nil _ _), hw2, hsort2]
    simp [pyJoin]

/-- Witness for C6 (amended): the words `"a" < "b"` tied at position 5. -/
theorem tie_break_lexicographic_witness :
    reconstruct_abstract (some [("b", [5]), ("a", [5])]) = "a" ++ " " ++ "b" ∧
    reconstruct_abstract (some [("a", [5]), ("b", [5])]) = "a" ++ " " ++ "b" :=
  tie_break_lexicographic "a" "b" 5 (by decide)

/-- Total number of positions listed across all words of an inverted
index (what the spec calls the token count of the abstract). -/
def totalPositions (idx : List (String × List Nat)) : Nat :=
  (idx.map (fun p => p.2.length)).sum

/-- Model of Python `s.split(" ")` at the character level: an explicit
single-character separator, so consecutive separators and leading or
trailing separators produce empty fields, and the empty string yields one
empty field. -/
def splitChars : List Char → List (List Char)
  | [] => [[]]
  | c :: cs =>
    let r := splitChars cs
    if c = ' ' then [] :: r else (c :: r.headD []) :: r.tail

/-- Model of Python `s.split(" ")` on strings. -/
def pySplit (s : String) : List String := (splitChars s.data).map fun l => String.mk l

/-- Strings allowed as words of a well-formed inverted index: no space. -/
def spaceFree (s : String) : Prop := ∀ c ∈ s.data, c ≠ ' '

instance : DecidablePred spaceFree :=
  fun s => inferInstanceAs (Decidable (∀ c ∈ s.data, c ≠ ' '))

/-- Splitting a space-free character list yields that single field. -/
theorem splitChars_nospace (l : List Char) (h : ∀ c ∈ l, c ≠ ' ') :
    splitChars l = [l] := by
  induction l with
  | nil => rfl
  | cons c cs ih =>
    have hc : c ≠ ' ' := h c (List.mem_cons_self c cs)
    rw [splitChars]
    simp only [if_neg hc, ih (fun d hd => h d (List.mem_cons_of_mem c hd))]
    rfl

/-- Splitting after a space-free prefix peels off that first field. -/
theorem splitChars_append_space (xs rest : List Char) (h : ∀ c ∈ xs, c ≠ ' ') :
    splitChars (xs ++ ' ' :: rest) = xs :: splitChars rest := by
  induction xs with
  | nil => simp [splitChars]
  | cons c cs ih =>
    have hc : c ≠ ' ' := h c (List.mem_cons_self c cs)
    rw [List.cons_append, splitChars]
    simp only [if_neg hc, ih (fun d hd => h d (List.mem_cons_of_mem c hd))]
    rfl

/-- Python `" ".join` and `split(" ")` are inverse on non-empty lists of
space-free fields. -/
theorem pySplit_pyJoin (l : List String) (h1 : l ≠ [])
    (h2 : ∀ s ∈ l, spaceFree s) : pySplit (pyJoin " " l) = l := by
  induction l with
  | nil => cases h1 rfl
  | cons x xs ih =>
    cases xs with
    | nil =>
      show pySplit x = [x]
      rw [pySplit, splitChars_nospace x.data (h2 x (List.mem_cons_self x []))]
      rfl
    | cons y ys =>
      have hx : spaceFree x := h2 x (List.mem_cons_self x (y :: ys))
      have hjoin : pyJoin " " (x :: y :: ys) = x ++ " " ++ pyJoin " " (y :: ys) := rfl
      rw [hjoin, pySplit]
      have hdata : (x ++ " " ++ pyJoin " " (y :: ys)).data =
          x.data ++ ' ' :: (pyJoin " " (y :: ys)).data := by
        simp [String.data_append]
      rw [hdata, splitChars_append_space x.data _ hx]
      simp only [List.map_cons]
      have htail : pySplit (pyJoin " " (y :: ys)) = y :: ys :=
        ih (by simp) (fun s hs => h2 s (List.mem_cons_of_mem x hs))
      rw [pySplit] at htail
      rw [htail]

/-- The flattened `(pos, word)` list has one entry per listed position. -/
theorem length_wordIndex (idx : List (String × List Nat)) :
    (wordIndex idx).length = totalPositions idx := by
  induction idx with
  | nil => rfl
  | cons e rest ih =>
    simp only [wordIndex, totalPositions, List.map_cons, List.flatten_cons,
      List.length_append, List.length_map, List.sum_cons] at ih ⊢
    omega

/-- Every word occurring in the flattened pair list is a word of the
index. -/
theorem mem_wordIndex (q : Nat × String) (idx : List (String × List Nat))
    (h : q ∈ wordIndex idx) : ∃ e ∈ idx, q.2 = e.1 := by
  simp only [wordIndex, List.mem_flatten, List.mem_map] at h
  obtain ⟨l2, ⟨e, he, rfl⟩, hq⟩ := h
  obtain ⟨pos, hpos, rfl⟩ := List.mem_map.mp hq
  exact ⟨e, he, rfl⟩

/-- C7 counterexample: the claim quantifies over every non-empty inverted
index; the non-empty index assigning the word `"a"` an empty position
list decodes to the empty string, which splits into one token, while the
total position count is zero. -/
theorem split_count_mismatch_empty_positions :
    (pySplit (reconstruct_abstract (some [("a", ([] : List Nat))]))).length = 1 ∧
    totalPositions [("a", ([] : List Nat))] = 0 := ⟨by decide, rfl⟩

/-- C7 (amended): for every non-empty inverted index whose words contain
no space character and which lists at least one position in total,
splitting the decoded output on a single space yields exactly as many
tokens as the total number of positions summed over all words; words are
emitted in ascending position order, so `[("a", [1]), ("b", [0])]`
decodes to `"b a"`; and decoding an absent or empty index yields the
empty string. -/
theorem decode_count_and_order (idx : List (String × List Nat))
    (hw : ∀ p ∈ idx, spaceFree p.1) (hpos : 0 < totalPositions idx) :
    (pySplit (reconstruct_abstract (some idx))).length = totalPositions idx ∧
    reconstruct_abstract (some [("a", [1]), ("b", [0])]) = "b a" ∧
    reconstruct_abstract none = "" ∧
    reconstruct_abstract (some []) = "" := by
  refine ⟨?_, by decide, rfl, rfl⟩
  have hne : idx ≠ [] := by
    intro h0
    rw [h0] at hpos
    simp [totalPositions] at hpos
  simp only [reconstruct_abstract]
  rw [if_neg hne]
  have hlen : ((pySort (wordIndex idx)).map Prod.snd).length = totalPositions idx := by
    rw [List.length_map, length_pySort, length_wordIndex]
  have hlne : (pySort (wordIndex idx)).map Prod.snd ≠ [] := by
    intro h0
    rw [h0] at hlen
    simp at hlen
    omega
  have hsf : ∀ s ∈ (pySort (wordIndex idx)).map Prod.snd, spaceFree s := by
    intro s hs
    obtain ⟨q, hq, rfl⟩ := List.mem_map.mp hs
    obtain ⟨e, he, heq⟩ := mem_wordIndex q idx (mem_pySort q _ hq)
    rw [heq]
    exact hw e he
  rw [pySplit_pyJoin _ hlne hsf, hlen]

/-- Witness for C7 (amended): a two-word index with three positions. -/
theorem decode_count_and_order_witness :
    (pySplit (reconstruct_abstract (some [("hello", [0, 2]), ("world", [1])]))).length =
      totalPositions [("hello", [0, 2]), ("world", [1])] ∧
    reconstruct_abstract (some [("a", [1]), ("b", [0])]) = "b a" ∧
    reconstruct_abstract none = "" ∧
    reconstruct_abstract (some []) = "" :=
  decode_count_and_order [("hello", [0, 2]), ("world", [1])] (by decide) (by decide)

/-- C1: when pages 1..k succeed (non-empty `results`, clean normalization,
a cursor present, accumulated total under the demo cap) and request k+1
fails — a non-success status or a request exception — the fetch returns
exactly the normalized records of pages 1..k: not an empty collection
(given at least one page) and, the model being a total function, not a
propagated exception. -/
theorem fetch_failure_returns_accumulated (server : Nat → Response)
    (ps : List (List RawWork)) (cs : Nat → Option String)
    (hserve : ∀ j (hj : j < ps.length),
      server j = Response.success (ps.get ⟨j, hj⟩) (some (cs j)))
    (hfail : server ps.length = Response.failure)
    (hne : ∀ p ∈ ps, p ≠ [])
    (hok : ∀ p ∈ ps, (processResults p).2 = false)
    (hcap : (ps.map List.length).sum < 2000)
    (hps : ps ≠ []) :
    (fetch_openalex_data server).1 =
      (ps.map (fun p => (processResults p).1)).flatten ∧
    (fetch_openalex_data server).1 ≠ [] := by
  have hcap2 : ∀ j, j < ps.length →
      (([] : List NormalizedRecord)).length +
        ((ps.take (j + 1)).map List.length).sum < 2000 := by
    intro j hj
    simp only [List.length_nil, Nat.zero_add]
    calc ((ps.take (j + 1)).map List.length).sum
        = ((ps.map List.length).take (j + 1)).sum := by rw [List.map_take]
      _ ≤ (ps.map List.length).sum := sum_take_le _ _
      _ < 2000 := hcap
  obtain ⟨c2, log2, heq, hlen⟩ :=
    fetchLoop_append server ps 0 [] (some "*") [] cs
      (by simpa using hserve) hne hok hcap2
  have hstop := fetchLoop_failure server ps.length
    ((ps.map (fun p => (processResults p).1)).flatten) c2 log2
    hfail
  have hres : (fetch_openalex_data server).1 =
      (ps.map (fun p => (processResults p).1)).flatten := by
    rw [fetch_openalex_data, heq]
    simp only [Nat.zero_add, List.nil_append]
    rw [hstop]
  refine ⟨hres, ?_⟩
  rw [hres]
  obtain ⟨p, rest, rfl⟩ := List.exists_cons_of_ne_nil hps
  have hpl : (processResults p).1.length = p.length :=
    processResults_length_of_ok p (hok p (List.mem_cons_self p rest))
  have hpne : p.length ≠ 0 := by
    intro h0
    exact hne p (List.mem_cons_self p rest) (List.length_eq_zero.mp h0)
  intro h0
  have := congrArg List.length h0
  simp only [List.map_cons, List.flatten_cons, List.length_append,
    List.length_nil] at this
  omega

/-- Server answering one good page then failing on the second request. -/
def onePageThenFail : Nat → Response := fun i =>
  if i = 0 then Response.success [emptyWork] (some (some "T"))
  else Response.failure

/-- Witness for C1: one successful page of one work, then a failure. -/
theorem fetch_failure_returns_accumulated_witness :
    (fetch_openalex_data onePageThenFail).1 =
      ([[emptyWork]].map (fun p => (processResults p).1)).flatten ∧
    (fetch_openalex_data onePageThenFail).1 ≠ [] :=
  fetch_failure_returns_accumulated onePageThenFail [[emptyWork]] (fun _ => some "T")
    (by
      intro j hj
      have hj0 : j = 0 := by simpa using hj
      subst hj0
      rfl)
    rfl
    (by
      intro p hp
      have hp2 : p = [emptyWork] := by simpa using hp
      subst hp2
      simp)
    (by
      intro p hp
      have hp2 : p = [emptyWork] := by simpa using hp
      subst hp2
      rfl)
    (by simp)
    (by simp)

/-- Server answering one page whose `meta.next_cursor` is JSON null, then
failing: a correct cursor client would never issue the second request. -/
def nullCursorServer : Nat → Response := fun i =>
  if i = 0 then Response.success [emptyWork] (some none) else Response.failure

/-- C2: evaluation at the failing input.  The code never tests
`next_cursor` for null: after the only page reports `next_cursor = null`
the loop assigns `cursor = None` and iterates, issuing a second request
(whose cursor parameter the `requests` library drops), shown here by the
request log holding two entries — the claim says pagination ends with no
further request after that page. -/
theorem null_cursor_issues_further_request :
    (fetch_openalex_data nullCursorServer).2 = [some "*", none] ∧
    (fetch_openalex_data nullCursorServer).1 = [emptyRecord] := by
  have h0 : nullCursorServer 0 = Response.success [emptyWork] (some none) := rfl
  have h1 : nullCursorServer 1 = Response.failure := rfl
  have hpr : processResults [emptyWork] = ([emptyRecord], false) := rfl
  have hstep := fetchLoop_next nullCursorServer 0 [] (some "*") []
    [emptyWork] [emptyRecord] none h0 (by simp) hpr (by decide)
  rw [fetch_openalex_data, hstep]
  simp only [Nat.zero_add, List.nil_append]
  rw [fetchLoop_failure nullCursorServer 1 [emptyRecord] none [some "*"] h1]
  exact ⟨rfl, rfl⟩

/-- A page whose j-th work raises keeps the j-1 records already appended
and sets the exception flag. -/
theorem processResults_append_err (good : List RawWork) :
    ∀ (bad : RawWork) (rest : List RawWork) (recs : List NormalizedRecord)
      (e : String),
    processResults good = (recs, false) →
    normalizeWork bad = Except.error e →
    processResults (good ++ bad :: rest) = (recs, true) := by
  induction good with
  | nil =>
    intro bad rest recs e hgood hbad
    simp only [processResults, Prod.mk.injEq] at hgood
    obtain ⟨h1, _⟩ := hgood
    subst h1
    simp [processResults, hbad]
  | cons w ws ih =>
    intro bad rest recs e hgood hbad
    rcases hn : normalizeWork w with er | r
    · simp [processResults, hn] at hgood
    · simp only [processResults, hn] at hgood ⊢
      rcases hq : processResults ws with ⟨rs, flag⟩
      rw [hq] at hgood
      simp only [Prod.mk.injEq] at hgood
      obtain ⟨h1, h2⟩ := hgood
      subst h1
      rw [h2] at hq
      simp only [List.append_eq]
      rw [ih bad rest rs e hq hbad]

/-- C10: record accumulation within one page is not atomic.  If pages
1..k process cleanly and on page k+1 the works split as
`good ++ bad :: rest` with `good` normalizing cleanly to `recs` and `bad`
raising (for instance a missing author display name), the fetch returns
the records of pages 1..k followed by `recs` — the partially processed
page's already-appended records are kept. -/
theorem partial_page_records_kept (server : Nat → Response)
    (ps : List (List RawWork)) (cs : Nat → Option String)
    (good : List RawWork) (bad : RawWork) (rest : List RawWork)
    (recs : List NormalizedRecord) (e : String) (mc : Option (Option String))
    (hserve : ∀ j (hj : j < ps.length),
      server j = Response.success (ps.get ⟨j, hj⟩) (some (cs j)))
    (hpage : server ps.length = Response.success (good ++ bad :: rest) mc)
    (hne : ∀ p ∈ ps, p ≠ [])
    (hok : ∀ p ∈ ps, (processResults p).2 = false)
    (hgood : processResults good = (recs, false))
    (hbad : normalizeWork bad = Except.error e)
    (hcap : (ps.map List.length).sum < 2000) :
    (fetch_openalex_data server).1 =
      (ps.map (fun p => (processResults p).1)).flatten ++ recs := by
  have hcap2 : ∀ j, j < ps.length →
      (([] : List NormalizedRecord)).length +
        ((ps.take (j + 1)).map List.length).sum < 2000 := by
    intro j hj
    simp only [List.length_nil, Nat.zero_add]
    calc ((ps.take (j + 1)).map List.length).sum
        = ((ps.map List.length).take (j + 1)).sum := by rw [List.map_take]
      _ ≤ (ps.map List.length).sum := sum_take_le _ _
      _ < 2000 := hcap
  obtain ⟨c2, log2, heq, hlen⟩ :=
    fetchLoop_append server ps 0 [] (some "*") [] cs
      (by simpa using hserve) hne hok hcap2
  have hperr : processResults (good ++ bad :: rest) = (recs, true) :=
    processResults_append_err good bad rest recs e hgood hbad
  have hstop := fetchLoop_page_err server ps.length
    ((ps.map (fun p => (processResults p).1)).flatten) c2 log2
    (good ++ bad :: rest) mc recs hpage (by simp) hperr
  rw [fetch_openalex_data, heq]
  simp only [Nat.zero_add, List.nil_append]
  rw [hstop]

/-- Server answering one clean page, then a page whose second work lacks
its author object. -/
def errPageServer : Nat → Response := fun i =>
  if i = 0 then Response.success [emptyWork] (some (some "T"))
  else Response.success [emptyWork, workMissingAuthor] (some (some "T"))

/-- Witness for C10: page two fails on its second work; the fetch keeps
page one's record plus the first record of the partial page. -/
theorem partial_page_records_kept_witness :
    (fetch_openalex_data errPageServer).1 =
      ([[emptyWork]].map (fun p => (processResults p).1)).flatten ++ [emptyRecord] :=
  partial_page_records_kept errPageServer [[emptyWork]] (fun _ => some "T")
    [emptyWork] workMissingAuthor [] [emptyRecord] "KeyError: author"
    (some (some "T"))
    (by
      intro j hj
      have hj0 : j = 0 := by simpa using hj
      subst hj0
      rfl)
    rfl
    (by
      intro p hp
      have hp2 : p = [emptyWork] := by simpa using hp
      subst hp2
      simp)
    (by
      intro p hp
      have hp2 : p = [emptyWork] := by simpa using hp
      subst hp2
      rfl)
    rfl
    rfl
    (by simp)

/-- A page of identical trivial works normalizes to the same number of
identical records with no exception. -/
theorem processResults_replicate (n : Nat) :
    processResults (List.replicate n emptyWork) =
      (List.replicate n emptyRecord, false) := by
  induction n with
  | zero => rfl
  | succ n ih =>
    have hn : normalizeWork emptyWork = Except.ok emptyRecord := rfl
    simp [List.replicate_succ, processResults, hn, ih]

/-- The first ten pages of the cap-overrun run: one page of 101 works,
then nine pages of 200. -/
def capPages : List (List RawWork) :=
  List.replicate 101 emptyWork :: List.replicate 9 (List.replicate 200 emptyWork)

/-- Server of the cap-overrun run: page one holds 101 works, every later
page holds 200, each with a live cursor. -/
def capServer : Nat → Response := fun i =>
  if i = 0 then Response.success (List.replicate 101 emptyWork) (some (some "T"))
  else Response.success (List.replicate 200 emptyWork) (some (some "T"))

/-- Every page `capServer` answers respects the per_page size of 200. -/
theorem capServer_page_bound :
    ∀ k res mc, capServer k = Response.success res mc → res.length ≤ 200 := by
  intro k res mc h
  cases k with
  | zero =>
    have h2 : Response.success (List.replicate 101 emptyWork) (some (some "T")) =
        Response.success res mc := h
    injection h2 with hres hmc
    rw [← hres, List.length_replicate]
    omega
  | succ k =>
    have h2 : Response.success (List.replicate 200 emptyWork) (some (some "T")) =
        Response.success res mc := h
    injection h2 with hres hmc
    rw [← hres, List.length_replicate]

/-- The first ten requests of `capServer` answer the pages of `capPages`. -/
theorem capPages_serve :
    ∀ j (hj : j < capPages.length),
      capServer j = Response.success (capPages.get ⟨j, hj⟩) (some (some "T")) := by
  intro j hj
  cases j with
  | zero => rfl
  | succ j =>
    have hget : capPages.get ⟨j + 1, hj⟩ = List.replicate 200 emptyWork := by
      show (List.replicate 9 (List.replicate 200 emptyWork)).get ⟨j, _⟩ = _
      exact List.get_replicate _ _
    rw [hget]
    rfl

/-- No page of the cap run is empty. -/
theorem capPages_ne : ∀ p ∈ capPages, p ≠ [] := by
  intro p hp h0
  have hl := congrArg List.length h0
  rw [List.length_nil] at hl
  rcases List.mem_cons.mp hp with rfl | hp2
  · rw [List.length_replicate] at hl
    omega
  · rw [List.eq_of_mem_replicate hp2] at hl
    rw [List.length_replicate] at hl
    omega

/-- Every page of the cap run normalizes without an exception. -/
theorem capPages_ok : ∀ p ∈ capPages, (processResults p).2 = false := by
  intro p hp
  rcases List.mem_cons.mp hp with rfl | hp2
  · rw [processResults_replicate]
  · rw [List.eq_of_mem_replicate hp2, processResults_replicate]

/-- Page sizes of the cap run. -/
theorem capPages_lengths : capPages.map List.length = 101 :: List.replicate 9 200 := by
  show (List.replicate 101 emptyWork ::
    List.replicate 9 (List.replicate 200 emptyWork)).map List.length = _
  rw [List.map_cons, List.map_replicate, List.length_replicate,
    List.length_replicate]

/-- Accumulated totals of the cap run stay below 2000 through page ten
(101, 301, ..., 1901), so the loop keeps requesting. -/
theorem capPages_prefix_sums :
    ∀ j, j < capPages.length →
      ((capPages.take (j + 1)).map List.length).sum < 2000 := by
  intro j hj
  rw [List.map_take, capPages_lengths]
  calc ((101 :: List.replicate 9 200).take (j + 1)).sum
      ≤ (101 :: List.replicate 9 200).sum := sum_take_le _ _
    _ < 2000 := by decide

/-- Normalized pages of the cap run. -/
theorem capPages_records :
    capPages.map (fun p => (processResults p).1) =
      List.replicate 101 emptyRecord ::
        List.replicate 9 (List.replicate 200 emptyRecord) := by
  show (List.replicate 101 emptyWork ::
    List.replicate 9 (List.replicate 200 emptyWork)).map
      (fun p => (processResults p).1) = _
  rw [List.map_cons, List.map_replicate]
  rw [processResults_replicate, processResults_replicate]

/-- Total record count of the cap run: 101 + 9·200 + 200 = 2101. -/
theorem capRun_total_length :
    ((capPages.map (fun p => (processResults p).1)).flatten ++
      List.replicate 200 emptyRecord).length = 2101 := by
  rw [List.length_append, List.length_flatten, capPages_records]
  simp only [List.map_cons, List.map_replicate, List.length_replicate]
  decide

/-- Result of the cap run: all eleven pages accumulate and eleven
requests are issued. -/
theorem capServer_result :
    (fetch_openalex_data capServer).1 =
      (capPages.map (fun p => (processResults p).1)).flatten ++
        List.replicate 200 emptyRecord ∧
    (fetch_openalex_data capServer).2.length = capPages.length + 1 :=
  fetch_capped_run capServer capPages (List.replicate 200 emptyWork)
    (List.replicate 200 emptyRecord) (fun _ => some "T") (some "T")
    capPages_serve rfl capPages_ne capPages_ok
    (by
      intro h0
      have h1 := congrArg List.length h0
      rw [List.length_replicate, List.length_nil] at h1
      omega)
    (processResults_replicate 200)
    capPages_prefix_sums
    (by rw [capRun_total_length]; omega)

/-- C3 counterexample: the claim asserts the accumulated count at loop
exit never exceeds the cap of 2000; the concrete run served by
`capServer` (a first page of 101 works, then pages of 200) exits with
2101 accumulated records, because the cap check runs only after a whole
page has been appended. -/
theorem cap_exceeded_counterexample :
    ((fetch_openalex_data capServer).1).length = 2101 ∧ 2000 < 2101 := by
  refine ⟨?_, by omega⟩
  rw [capServer_result.1, capRun_total_length]

/-- C3 (amended): the accumulated count can end above the cap, but never
by more than one page: when every page the server answers holds at most
P = 200 results (the `per_page` parameter), the final count is below
C + P = 2200; and the loop issues no further requests once the count has
reached C = 2000 — in a run that ends by reaching the cap, the number of
requests equals the number of pages processed. -/
theorem cap_overshoot_bounded :
    (∀ server : Nat → Response,
      (∀ k res mc, server k = Response.success res mc → res.length ≤ 200) →
      ((fetch_openalex_data server).1).length < 2200) ∧
    (∀ (server : Nat → Response) (ps : List (List RawWork)) (q : List RawWork)
       (qpage : List NormalizedRecord) (cs : Nat → Option String)
       (c : Option String),
      (∀ j (hj : j < ps.length),
        server j = Response.success (ps.get ⟨j, hj⟩) (some (cs j))) →
      server ps.length = Response.success q (some c) →
      (∀ p ∈ ps, p ≠ []) →
      (∀ p ∈ ps, (processResults p).2 = false) →
      q ≠ [] →
      processResults q = (qpage, false) →
      (∀ j, j < ps.length → ((ps.take (j + 1)).map List.length).sum < 2000) →
      ((ps.map (fun p => (processResults p).1)).flatten ++ qpage).length ≥ 2000 →
      (fetch_openalex_data server).2.length = ps.length + 1) := by
  constructor
  · intro server hp
    exact fetchLoop_length_bound server hp 0 [] (some "*") [] (by simp)
  · intro server ps q qpage cs c h1 h2 h3 h4 h5 h6 h7 h8
    exact (fetch_capped_run server ps q qpage cs c h1 h2 h3 h4 h5 h6 h7 h8).2

/-- Witness for C3 (amended): the cap-overrun server stays below 2200 and
issues exactly eleven requests for its eleven pages. -/
theorem cap_overshoot_bounded_witness :
    ((fetch_openalex_data capServer).1).length < 2200 ∧
    (fetch_openalex_data capServer).2.length = capPages.length + 1 :=
  ⟨cap_overshoot_bounded.1 capServer capServer_page_bound,
   cap_overshoot_bounded.2 capServer capPages (List.replicate 200 emptyWork)
     (List.replicate 200 emptyRecord) (fun _ => some "T") (some "T")
     capPages_serve rfl capPages_ne capPages_ok
     (by
       intro h0
       have h1 := congrArg List.length h0
       rw [List.length_replicate, List.length_nil] at h1
       omega)
     (processResults_replicate 200)
     capPages_prefix_sums
     (by rw [capRun_total_length]; omega)⟩

end OpenAlexModel
